import Mathlib

/-!
# Monadleware: the middleware composition algebra

Shallow embedding of `monadleware.go`.

* `type MiddleWare func(h http.Handler) http.Handler` is a Go function type, so a value of
  it is either `nil` or a function.  A call of a `nil` function value panics, and the body
  of a middleware may panic on its own; both are kept as `Except.error`.
* `http.Handler` belongs to `net/http`; the algebra never inspects it, so it is a type
  parameter `H`.
-/

namespace Monadleware

/-- Run-time faults of a call `mw(h)`: the call of a nil function value, or a panic raised
by the body of the middleware itself. -/
inductive Fault where
  | absentValue
  | raised (msg : String)
  deriving DecidableEq, Repr

/-- Model of `type MiddleWare func(h http.Handler) http.Handler`: `none` is the nil function
value, `some f` a function whose call either returns a handler or panics. -/
abbrev MiddleWare (H : Type) : Type := Option (H → Except Fault H)

/-- The Go call expression `mw(h)`: calling the nil function value is a fault. -/
def MiddleWare.apply {H : Type} (mw : MiddleWare H) (h : H) : Except Fault H :=
  match mw with
  | none => Except.error Fault.absentValue
  | some f => f h

/-- Model of `func (mw MiddleWare) Bind(next MiddleWare) MiddleWare`.  The method has a value
receiver and only builds a closure, so it never faults and never returns nil.  In the body
`mw(next(h))` the argument `next(h)` is evaluated before `mw` is called. -/
def MiddleWare.Bind {H : Type} (mw next : MiddleWare H) : MiddleWare H :=
  some (fun h =>
    match next.apply h with
    | Except.error e => Except.error e
    | Except.ok h' => mw.apply h')

/-- Model of `func (mw MiddleWare) Call(h http.HandlerFunc) http.Handler`, whose body is
`mw(http.HandlerFunc(h))`.  The conversion `http.HandlerFunc` belongs to `net/http` and is
taken as the parameter `HandlerFunc`. -/
def MiddleWare.Call {F H : Type} (HandlerFunc : F → H) (mw : MiddleWare H) (h : F) :
    Except Fault H :=
  mw.apply (HandlerFunc h)

/-- The loop `for _, m := range mws[1:] { mw = mw.Bind(m) }` of `Chain`, started with the
accumulator `mw`. -/
def chainLoop {H : Type} (mw : MiddleWare H) : List (MiddleWare H) → MiddleWare H
  | [] => mw
  | m :: rest => chainLoop (mw.Bind m) rest

/-- Model of `func Chain(mws ...MiddleWare) MiddleWare`: nil for no argument, otherwise the
loop started with `mws[0]` over `mws[1:]`. -/
def Chain {H : Type} : List (MiddleWare H) → MiddleWare H
  | [] => none
  | m :: rest => chainLoop m rest

/-- The right-nested application `m1(m2(...(mn(h))...))` as Go evaluates it: the innermost
call `mn(h)` first, each result handed to the next middleware outwards, a fault ending the
evaluation. -/
def nested {H : Type} : List (MiddleWare H) → H → Except Fault H
  | [], h => Except.ok h
  | m :: rest, h =>
    match nested rest h with
    | Except.error e => Except.error e
    | Except.ok h' => m.apply h'

/-- The identity middleware `func(h http.Handler) http.Handler { return h }`. -/
def identity {H : Type} : MiddleWare H := some (fun h => Except.ok h)

/-- The middleware given by a pure transformation of handlers: it is not nil and its call
always returns. -/
def total {H : Type} (f : H → H) : MiddleWare H := some (fun h => Except.ok (f h))

/-- A middleware is well formed when it is not nil and its call returns a handler for every
handler it is given. -/
def WellFormed {H : Type} (mw : MiddleWare H) : Prop :=
  ∃ f : H → Except Fault H, mw = some f ∧ ∀ h, ∃ h', f h = Except.ok h'

/-! ## The recording scenario

Handlers are modelled as functions on an event log: running a handler on the log so far gives
the log after it. -/

/-- Events written to the log by the recording middlewares and the terminal handler. -/
inductive Event (L : Type) where
  | enter (l : L)
  | handled
  | exit (l : L)
  deriving DecidableEq, Repr

/-- A handler as a function on the event log. -/
abbrev LogHandler (L : Type) : Type := List (Event L) → List (Event L)

/-- The recording middleware with label `l`: its handler appends `enter l`, delegates to the
downstream handler `next`, then appends `exit l`. -/
def recording {L : Type} (l : L) : MiddleWare (LogHandler L) :=
  some (fun next => Except.ok (fun log => next (log ++ [Event.enter l]) ++ [Event.exit l]))

/-- The terminal handler of the scenario: it appends `handled`. -/
def terminal {L : Type} : LogHandler L := fun log => log ++ [Event.handled]

/-- Invoke the handler produced by an application on a log; a fault of the application is
the result. -/
def invoke {L : Type} (r : Except Fault (LogHandler L)) (log : List (Event L)) :
    Except Fault (List (Event L)) :=
  match r with
  | Except.error e => Except.error e
  | Except.ok hd => Except.ok (hd log)

/-! ## Sample middlewares over handlers numbered by `Nat` -/

/-- A middleware that never delegates: whatever handler it is given, it returns handler 0. -/
def deny : MiddleWare Nat := some (fun _ => Except.ok 0)

/-- A middleware whose body panics when it is called. -/
def faulty : MiddleWare Nat := some (fun _ => Except.error (Fault.raised "boom"))

/-- A middleware that wraps handler `n` into handler `n + 1`. -/
def wrap : MiddleWare Nat := some (fun n => Except.ok (n + 1))

/-! ## Handlers over explicit state

For the frame properties a handler is a function on a state `S`, and a part of the state is
a projection `S → V`. -/

/-- A handler as a function on the state. -/
abbrev StateHandler (S : Type) : Type := S → S

/-- The handler `hd` leaves the part `part` of the state unchanged. -/
def Preserves {S V : Type} (part : S → V) (hd : StateHandler S) : Prop :=
  ∀ s, part (hd s) = part s

/-- The middleware touches no state of its own in `part`: a handler it produces writes
`part` only by delegating, so it preserves `part` whenever the downstream handler does. -/
def Frames {S V : Type} (part : S → V) (mw : MiddleWare (StateHandler S)) : Prop :=
  ∀ next hd, mw.apply next = Except.ok hd → Preserves part next → Preserves part hd

/-- A terminal handler that writes only the first component of the state. -/
def bumpFst : StateHandler (Nat × Nat) := fun s => (s.1 + 1, s.2)

/-- A terminal handler that writes only the second component of the state. -/
def bumpSnd : StateHandler (Nat × Nat) := fun s => (s.1, s.2 + 1)

/-- A middleware with no state of its own: its handler delegates twice. -/
def relayTwice : MiddleWare (StateHandler (Nat × Nat)) :=
  some (fun next => Except.ok (fun s => next (next s)))

/-! ## Basic lemmas -/

theorem apply_Bind {H : Type} (mw next : MiddleWare H) (h : H) :
    (mw.Bind next).apply h =
      match next.apply h with
      | Except.error e => Except.error e
      | Except.ok h' => mw.apply h' := rfl

theorem chainLoop_eq_foldl {H : Type} (ms : List (MiddleWare H)) (mw : MiddleWare H) :
    chainLoop mw ms = ms.foldl MiddleWare.Bind mw := by
  induction ms generalizing mw with
  | nil => rfl
  | cons m rest ih => simp [chainLoop, ih]

theorem apply_chainLoop {H : Type} (ms : List (MiddleWare H)) (mw : MiddleWare H) (h : H) :
    (chainLoop mw ms).apply h =
      match nested ms h with
      | Except.error e => Except.error e
      | Except.ok h' => mw.apply h' := by
  induction ms generalizing mw with
  | nil => rfl
  | cons m rest ih =>
    rw [chainLoop, ih, nested]
    cases nested rest h with
    | error e => rfl
    | ok h' => rfl

theorem apply_Chain_cons {H : Type} (m : MiddleWare H) (ms : List (MiddleWare H)) (h : H) :
    (Chain (m :: ms)).apply h = nested (m :: ms) h := by
  rw [Chain, apply_chainLoop, nested]

theorem apply_Chain_of_ne_nil {H : Type} (ms : List (MiddleWare H)) (hne : ms ≠ []) (h : H) :
    (Chain ms).apply h = nested ms h := by
  cases ms with
  | nil => exact absurd rfl hne
  | cons m rest => exact apply_Chain_cons m rest h

theorem nested_append {H : Type} (xs ys : List (MiddleWare H)) (h : H) :
    nested (xs ++ ys) h =
      match nested ys h with
      | Except.error e => Except.error e
      | Except.ok x => nested xs x := by
  induction xs with
  | nil =>
    cases hy : nested ys h with
    | error e => simp [hy]
    | ok x => simp [hy, nested]
  | cons m rest ih =>
    rw [List.cons_append, nested, ih]
    cases nested ys h with
    | error e => rfl
    | ok x => simp only [nested]

theorem nested_total {H : Type} (fs : List (H → H)) (h : H) :
    nested (fs.map total) h = Except.ok (fs.foldr (fun f x => f x) h) := by
  induction fs with
  | nil => rfl
  | cons f rest ih => simp only [List.map_cons, nested, ih, List.foldr_cons]; rfl

theorem nested_ok_of_wellFormed {H : Type} (ms : List (MiddleWare H))
    (hwf : ∀ m ∈ ms, WellFormed m) (h : H) : ∃ x, nested ms h = Except.ok x := by
  induction ms with
  | nil => exact ⟨h, rfl⟩
  | cons m rest ih =>
    obtain ⟨x, hx⟩ := ih (fun m' hm' => hwf m' (List.mem_cons_of_mem _ hm'))
    obtain ⟨f, hf, hok⟩ := hwf m (List.mem_cons_self _ _)
    obtain ⟨y, hy⟩ := hok x
    refine ⟨y, ?_⟩
    simp only [nested, hx, hf, MiddleWare.apply, hy]

theorem nested_recording {L : Type} (labels : List L) (h : LogHandler L) :
    nested (labels.map recording) h =
      Except.ok (fun log =>
        h (log ++ labels.map Event.enter) ++ labels.reverse.map Event.exit) := by
  induction labels with
  | nil =>
    simp only [List.map_nil, nested, List.reverse_nil, List.append_nil]
  | cons l rest ih =>
    simp only [List.map_cons, nested, ih, recording, MiddleWare.apply, List.reverse_cons,
      List.map_append, List.map_nil, List.append_assoc, List.singleton_append]

/-! ## Claims -/

/-- C1: for all middlewares `mw`, `next` and every handler `h`, applying `Bind(mw, next)` to
`h` is `mw(next(h))`: `next` is applied to `h` first (inner) and `mw` to its result (outer),
a fault of the inner call being the result; for two pure transformations `f` and `g` the
result is the handler `f (g h)`. -/
theorem C1_bind_apply {H : Type} (mw next : MiddleWare H) (h : H) :
    (mw.Bind next).apply h = (next.apply h >>= mw.apply) ∧
    ∀ f g : H → H, ((total f).Bind (total g)).apply h = Except.ok (f (g h)) := by
  refine ⟨?_, fun f g => rfl⟩
  rw [apply_Bind]
  cases next.apply h with
  | error e => rfl
  | ok h' => rfl

/-- C2: for every non-empty sequence `m :: ms` of middlewares and every handler `h`, applying
`Chain(m, ms...)` to `h` is the right-nested application, first element outermost and last
innermost; `Chain(a, b, c)(h)` is `a(b(c(h)))`, and for pure transformations the result is
the handler obtained by folding them over `h` from the right. -/
theorem C2_chain_right_nested {H : Type} (m : MiddleWare H) (ms : List (MiddleWare H)) (h : H) :
    (Chain (m :: ms)).apply h = nested (m :: ms) h ∧
    (∀ a b c : MiddleWare H,
      (Chain [a, b, c]).apply h = (c.apply h >>= b.apply >>= a.apply)) ∧
    (∀ (f : H → H) (fs : List (H → H)),
      (Chain (total f :: fs.map total)).apply h =
        Except.ok (f (fs.foldr (fun g x => g x) h))) := by
  refine ⟨apply_Chain_cons m ms h, fun a b c => ?_, fun f fs => ?_⟩
  · rw [apply_Chain_cons]
    simp only [nested]
    cases c.apply h with
    | error e => rfl
    | ok x =>
      cases hb : b.apply x with
      | error e => simp [bind, Except.bind, hb]
      | ok y => simp [bind, Except.bind, hb]
  · rw [apply_Chain_cons, nested, nested_total]
    rfl

/-- C3: for every non-empty sequence `m :: ms`, `Chain` is the left fold of `Bind` over the
sequence started from its first element; in particular `Bind(Bind(a, b), c)` applied to `h`
equals `Chain(a, b, c)` applied to `h`. -/
theorem C3_chain_left_fold {H : Type} (m : MiddleWare H) (ms : List (MiddleWare H)) :
    Chain (m :: ms) = ms.foldl MiddleWare.Bind m ∧
    ∀ (a b c : MiddleWare H) (h : H),
      ((a.Bind b).Bind c).apply h = (Chain [a, b, c]).apply h := by
  refine ⟨?_, fun a b c h => rfl⟩
  rw [Chain, chainLoop_eq_foldl]

/-- C4: `Bind` is associative up to application: `Bind(Bind(a, b), c)` and
`Bind(a, Bind(b, c))` give the same result on every handler. -/
theorem C4_bind_assoc {H : Type} (a b c : MiddleWare H) (h : H) :
    ((a.Bind b).Bind c).apply h = (a.Bind (b.Bind c)).apply h := by
  simp only [apply_Bind]
  cases c.apply h with
  | error e => rfl
  | ok x => rfl

/-- C5: `Chain(x)` returns `x` itself, so it agrees with `x` on every handler. -/
theorem C5_chain_single {H : Type} (x : MiddleWare H) :
    Chain [x] = x ∧ ∀ h : H, (Chain [x]).apply h = x.apply h :=
  ⟨rfl, fun _ => rfl⟩

/-- C6: `Chain()` returns the nil middleware, not the identity: applying it to a handler is
the absent-value fault and never returns that handler. -/
theorem C6_chain_empty_absent {H : Type} :
    Chain ([] : List (MiddleWare H)) = none ∧
    Chain ([] : List (MiddleWare H)) ≠ identity ∧
    ∀ h : H, (Chain ([] : List (MiddleWare H))).apply h = Except.error Fault.absentValue ∧
      (Chain ([] : List (MiddleWare H))).apply h ≠ Except.ok h := by
  refine ⟨rfl, ?_, fun h => ⟨rfl, ?_⟩⟩
  · simp [Chain, identity]
  · simp [Chain, MiddleWare.apply]

/-- C7: for every non-empty list of labels `L1..Ln`, applying `Chain(rec L1, ..., rec Ln)` to
the terminal handler and invoking the resulting handler on the empty log gives exactly
`enter L1, ..., enter Ln, handled, exit Ln, ..., exit L1`. -/
theorem C7_recording_order {L : Type} (labels : List L) (hne : labels ≠ []) :
    invoke ((Chain (labels.map recording)).apply terminal) [] =
      Except.ok (labels.map Event.enter ++ [Event.handled] ++
        labels.reverse.map Event.exit) := by
  have hmap : labels.map recording ≠ [] := by
    intro hnil
    exact hne (List.map_eq_nil_iff.mp hnil)
  rw [apply_Chain_of_ne_nil _ hmap, nested_recording]
  simp [invoke, terminal]

/-- C7 on the labels `A`, `B`, `C`: the log is `enter A, enter B, enter C, handled, exit C,
exit B, exit A`. -/
theorem C7_recording_order_witness :
    ['A', 'B', 'C'] ≠ [] ∧
    invoke ((Chain [recording 'A', recording 'B', recording 'C']).apply terminal) [] =
      Except.ok [Event.enter 'A', Event.enter 'B', Event.enter 'C', Event.handled,
        Event.exit 'C', Event.exit 'B', Event.exit 'A'] :=
  ⟨by simp, C7_recording_order ['A', 'B', 'C'] (by simp)⟩

/-- C8 as stated fails: `deny` never delegates, yet `Chain(deny, nil)` and
`Chain(deny, faulty)` applied to a handler fault, while `Chain(deny)` applied to the same
handler returns the handler of `deny`; the middlewares after `deny` are called when the
chain is applied to the terminal handler. -/
theorem C8_short_circuit_counterexample :
    (∀ h1 h2 : Nat, deny.apply h1 = deny.apply h2) ∧
    (Chain ([] ++ [deny] ++ [none])).apply 1 = Except.error Fault.absentValue ∧
    (Chain ([] ++ [deny] ++ [faulty])).apply 1 = Except.error (Fault.raised "boom") ∧
    (Chain ([] ++ [deny])).apply 1 = Except.ok 0 ∧
    (Chain ([] ++ [deny] ++ [none])).apply 1 ≠ (Chain ([] ++ [deny])).apply 1 ∧
    (Chain ([] ++ [deny] ++ [faulty])).apply 1 ≠ (Chain ([] ++ [deny])).apply 1 := by
  refine ⟨fun _ _ => rfl, rfl, rfl, rfl, ?_, ?_⟩
  · intro hEq
    cases hEq
  · intro hEq
    cases hEq

/-- C8, amended: for every middleware `s` that never delegates (`s(h1) = s(h2)` for all
handlers), all sequences `pre` and `post` and all terminal handlers `h`, `h1`, provided the
middlewares of `post`, applied to `h` innermost first, each return a handler (none is nil
and none faults there), `Chain(pre ++ [s] ++ post)` applied to `h` equals
`Chain(pre ++ [s])` applied to `h1`. -/
theorem C8_short_circuit {H : Type} (s : MiddleWare H)
    (hs : ∀ h1 h2 : H, s.apply h1 = s.apply h2) (pre post : List (MiddleWare H)) (h h1 : H)
    (hpost : ∃ x, nested post h = Except.ok x) :
    (Chain (pre ++ [s] ++ post)).apply h = (Chain (pre ++ [s])).apply h1 := by
  obtain ⟨x, hx⟩ := hpost
  have hne : pre ++ [s] ≠ [] := by simp
  have hne2 : pre ++ [s] ++ post ≠ [] := by simp
  rw [apply_Chain_of_ne_nil _ hne2, apply_Chain_of_ne_nil _ hne, nested_append, hx]
  simp only [nested_append pre [s], nested, hs x h1]

/-- C8 at `pre = [wrap]`, `s = deny`, `post = [wrap, wrap]` and the terminal handlers 5
and 9: both applications return handler 1. -/
theorem C8_short_circuit_witness :
    (∀ h1 h2 : Nat, deny.apply h1 = deny.apply h2) ∧
    (∃ x, nested [wrap, wrap] 5 = Except.ok x) ∧
    (Chain ([wrap] ++ [deny] ++ [wrap, wrap])).apply 5 = (Chain ([wrap] ++ [deny])).apply 9 ∧
    (Chain ([wrap] ++ [deny])).apply 9 = Except.ok 1 :=
  ⟨fun _ _ => rfl, ⟨7, rfl⟩,
    C8_short_circuit deny (fun _ _ => rfl) [wrap] [wrap, wrap] 5 9 ⟨7, rfl⟩, rfl⟩

/-- C9: `Call(mw, f)` is `mw` applied to the handler obtained by converting `f`, nothing
more: for the identity middleware it returns the converted `f`, and for the nil middleware
it is the fault of calling nil. -/
theorem C9_call_coerce_apply {F H : Type} (HandlerFunc : F → H) (mw : MiddleWare H) (f : F) :
    mw.Call HandlerFunc f = mw.apply (HandlerFunc f) ∧
    (identity : MiddleWare H).Call HandlerFunc f = Except.ok (HandlerFunc f) ∧
    (∀ g : H → H, (total g).Call HandlerFunc f = Except.ok (g (HandlerFunc f))) ∧
    MiddleWare.Call HandlerFunc (none : MiddleWare H) f = Except.error Fault.absentValue :=
  ⟨rfl, rfl, fun _ => rfl, rfl⟩

/-- C10: for every sequence `mws` of well-formed (non-nil, non-faulting) middlewares and
every handler `h`, applying `Chain(mws)` to `h` is the absent-value fault if and only if
`mws` is empty; for a non-empty `mws` the application returns a handler. -/
theorem C10_fault_iff_empty {H : Type} (mws : List (MiddleWare H))
    (hwf : ∀ m ∈ mws, WellFormed m) (h : H) :
    ((Chain mws).apply h = Except.error Fault.absentValue ↔ mws = []) ∧
    (mws ≠ [] → ∃ x, (Chain mws).apply h = Except.ok x) := by
  have hok : mws ≠ [] → ∃ x, (Chain mws).apply h = Except.ok x := by
    intro hne
    obtain ⟨x, hx⟩ := nested_ok_of_wellFormed mws hwf h
    exact ⟨x, by rw [apply_Chain_of_ne_nil mws hne, hx]⟩
  refine ⟨⟨fun hfault => ?_, fun hnil => ?_⟩, hok⟩
  · by_contra hne
    obtain ⟨x, hx⟩ := hok hne
    rw [hx] at hfault
    cases hfault
  · subst hnil
    rfl

/-- C10 at the well-formed sequence `[wrap, wrap]` and handler 0: the application returns
handler 2 and is no fault. -/
theorem C10_fault_iff_empty_witness :
    (∀ m ∈ [wrap, wrap], WellFormed m) ∧
    (((Chain [wrap, wrap]).apply 0 = Except.error Fault.absentValue ↔
        [wrap, wrap] = ([] : List (MiddleWare Nat))) ∧
      ([wrap, wrap] ≠ [] → ∃ x, (Chain [wrap, wrap]).apply 0 = Except.ok x)) ∧
    (Chain [wrap, wrap]).apply 0 = Except.ok 2 :=
  have hwf : ∀ m ∈ [wrap, wrap], WellFormed m := by
    intro m hm
    have hm' : m = wrap := by simpa using hm
    subst hm'
    exact ⟨fun n => Except.ok (n + 1), rfl, fun n => ⟨n + 1, rfl⟩⟩
  ⟨hwf, C10_fault_iff_empty [wrap, wrap] hwf 0, rfl⟩


/-! ## Further lemmas -/

theorem chainLoop_ne_none {H : Type} (ms : List (MiddleWare H)) (mw : MiddleWare H)
    (hmw : ∃ f, mw = some f) : ∃ f, chainLoop mw ms = some f := by
  induction ms generalizing mw with
  | nil => exact hmw
  | cons m rest ih => exact ih (mw.Bind m) ⟨_, rfl⟩

theorem wellFormed_Bind {H : Type} (mw next : MiddleWare H) (hmw : WellFormed mw)
    (hnext : WellFormed next) : WellFormed (mw.Bind next) := by
  obtain ⟨f, hf, hfok⟩ := hmw
  obtain ⟨g, hg, hgok⟩ := hnext
  refine ⟨_, rfl, fun h => ?_⟩
  obtain ⟨x, hx⟩ := hgok h
  obtain ⟨y, hy⟩ := hfok x
  exact ⟨y, by simp only [hg, hf, MiddleWare.apply, hx, hy]⟩

theorem nested_identity_cons {H : Type} (ys : List (MiddleWare H)) (h : H) :
    nested (identity :: ys) h = nested ys h := by
  rw [nested]
  cases nested ys h with
  | error e => rfl
  | ok x => rfl

theorem nested_absent_fault {H : Type} (xs ys : List (MiddleWare H)) (h : H) :
    ∃ e, nested (xs ++ none :: ys) h = Except.error e := by
  rw [nested_append, nested]
  cases nested ys h with
  | error e => exact ⟨e, rfl⟩
  | ok x => exact ⟨Fault.absentValue, rfl⟩

theorem nested_absent_of_ok {H : Type} (xs ys : List (MiddleWare H)) (h x : H)
    (hys : nested ys h = Except.ok x) :
    nested (xs ++ none :: ys) h = Except.error Fault.absentValue := by
  rw [nested_append, nested, hys]
  rfl

theorem preserves_nested {S V : Type} (part : S → V) (ms : List (MiddleWare (StateHandler S)))
    (hfr : ∀ m ∈ ms, Frames part m) (h : StateHandler S) (hh : Preserves part h)
    (hd : StateHandler S) (hres : nested ms h = Except.ok hd) : Preserves part hd := by
  induction ms generalizing hd with
  | nil =>
    simp only [nested, Except.ok.injEq] at hres
    exact hres ▸ hh
  | cons m rest ih =>
    rw [nested] at hres
    cases hrest : nested rest h with
    | error e => simp [hrest] at hres
    | ok x =>
      simp only [hrest] at hres
      exact hfr m (List.mem_cons_self _ _) x hd hres
        (ih (fun m' hm' => hfr m' (List.mem_cons_of_mem _ hm')) x hrest)

theorem preserves_Chain {S V : Type} (part : S → V) (ms : List (MiddleWare (StateHandler S)))
    (hfr : ∀ m ∈ ms, Frames part m) (h : StateHandler S) (hh : Preserves part h)
    (hd : StateHandler S) (hres : (Chain ms).apply h = Except.ok hd) : Preserves part hd := by
  cases ms with
  | nil => simp [Chain, MiddleWare.apply] at hres
  | cons m rest =>
    rw [apply_Chain_cons] at hres
    exact preserves_nested part (m :: rest) hfr h hh hd hres

/-! ## Claims, continued -/

/-- C11: `Bind` has no error conditions: for every pair of middlewares `mw` and `next`, nil
ones included, `Bind(mw, next)` is a function value and never nil; when both are well
formed, so is the composite. -/
theorem C11_bind_never_fails {H : Type} (mw next : MiddleWare H) :
    (∃ f, mw.Bind next = some f) ∧ mw.Bind next ≠ none ∧
    (WellFormed mw → WellFormed next → WellFormed (mw.Bind next)) :=
  ⟨⟨_, rfl⟩, by simp [MiddleWare.Bind], wellFormed_Bind mw next⟩

/-- C12: reusability.  For every sequence `mws` and terminal handlers `H1`, `H2`, the result
of applying `Chain(mws)` to `H1` is the nil fault for the empty sequence and the right-nested
application of `mws` to `H1` otherwise, a function of `mws` and `H1` alone, and likewise for
`H2`.  If the middlewares of `mws` touch no state of their own in `part1` and `part2`, `H1`
does not write `part2` and `H2` does not write `part1`, then every handler `Chain(mws)(H1)`
returns leaves `part2` unchanged and every handler `Chain(mws)(H2)` returns leaves `part1`
unchanged; for a non-empty sequence of well-formed middlewares both handlers are returned. -/
theorem C12_reusable {S V1 V2 : Type} (mws : List (MiddleWare (StateHandler S)))
    (H1 H2 : StateHandler S) (part1 : S → V1) (part2 : S → V2)
    (hfr1 : ∀ m ∈ mws, Frames part1 m) (hfr2 : ∀ m ∈ mws, Frames part2 m)
    (hH1 : Preserves part2 H1) (hH2 : Preserves part1 H2) :
    ((Chain mws).apply H1 =
        match mws with
        | [] => Except.error Fault.absentValue
        | m :: rest => nested (m :: rest) H1) ∧
    ((Chain mws).apply H2 =
        match mws with
        | [] => Except.error Fault.absentValue
        | m :: rest => nested (m :: rest) H2) ∧
    (∀ c1, (Chain mws).apply H1 = Except.ok c1 → Preserves part2 c1) ∧
    (∀ c2, (Chain mws).apply H2 = Except.ok c2 → Preserves part1 c2) ∧
    (mws ≠ [] → (∀ m ∈ mws, WellFormed m) →
      ∃ c1 c2, (Chain mws).apply H1 = Except.ok c1 ∧ (Chain mws).apply H2 = Except.ok c2 ∧
        Preserves part2 c1 ∧ Preserves part1 c2) := by
  have hp1 := preserves_Chain part2 mws hfr2 H1 hH1
  have hp2 := preserves_Chain part1 mws hfr1 H2 hH2
  refine ⟨?_, ?_, hp1, hp2, fun hne hwf => ?_⟩
  · cases mws with
    | nil => rfl
    | cons m rest => exact apply_Chain_cons m rest H1
  · cases mws with
    | nil => rfl
    | cons m rest => exact apply_Chain_cons m rest H2
  · obtain ⟨c1, hc1⟩ := nested_ok_of_wellFormed mws hwf H1
    obtain ⟨c2, hc2⟩ := nested_ok_of_wellFormed mws hwf H2
    rw [← apply_Chain_of_ne_nil mws hne] at hc1 hc2
    exact ⟨c1, c2, hc1, hc2, hp1 c1 hc1, hp2 c2 hc2⟩

/-- C12 at the chain `[relayTwice, relayTwice]` over a state of two counters, `H1` writing
only the first and `H2` only the second: invoked on `(0, 0)`, the handler made from `H1`
gives `(4, 0)` and the one made from `H2` gives `(0, 4)`. -/
theorem C12_reusable_witness :
    (∃ c1 c2, (Chain [relayTwice, relayTwice]).apply bumpFst = Except.ok c1 ∧
      (Chain [relayTwice, relayTwice]).apply bumpSnd = Except.ok c2 ∧
      Preserves Prod.snd c1 ∧ Preserves Prod.fst c2 ∧ c1 (0, 0) = (4, 0) ∧ c2 (0, 0) = (0, 4)) :=
  have hfr : ∀ (V : Type) (part : Nat × Nat → V), ∀ m ∈ [relayTwice, relayTwice],
      Frames part m := by
    intro V part m hm next hd happ hnext s
    have hm' : m = relayTwice := by simpa using hm
    subst hm'
    simp only [relayTwice, MiddleWare.apply, Except.ok.injEq] at happ
    subst happ
    rw [hnext, hnext]
  have hwf : ∀ m ∈ [relayTwice, relayTwice], WellFormed m := by
    intro m hm
    have hm' : m = relayTwice := by simpa using hm
    subst hm'
    exact ⟨_, rfl, fun next => ⟨_, rfl⟩⟩
  have hall := C12_reusable [relayTwice, relayTwice] bumpFst bumpSnd Prod.fst Prod.snd
    (hfr Nat Prod.fst) (hfr Nat Prod.snd) (fun _ => rfl) (fun _ => rfl)
  ⟨_, _, rfl, rfl, hall.2.2.1 _ rfl, hall.2.2.2.1 _ rfl, rfl, rfl⟩

/-- C13: composition is not commutative: for the recording middlewares `A` and `B` and the
terminal handler, `Bind(A, B)` and `Bind(B, A)` return different handlers; invoked on the
empty log, the first logs `enter A, enter B, handled, exit B, exit A` and the second
`enter B, enter A, handled, exit A, exit B`. -/
theorem C13_bind_not_commutative :
    (∃ (a b : MiddleWare (LogHandler Char)) (h : LogHandler Char),
      (a.Bind b).apply h ≠ (b.Bind a).apply h) ∧
    invoke (((recording 'A').Bind (recording 'B')).apply terminal) [] =
      Except.ok [Event.enter 'A', Event.enter 'B', Event.handled, Event.exit 'B',
        Event.exit 'A'] ∧
    invoke (((recording 'B').Bind (recording 'A')).apply terminal) [] =
      Except.ok [Event.enter 'B', Event.enter 'A', Event.handled, Event.exit 'A',
        Event.exit 'B'] := by
  refine ⟨⟨recording 'A', recording 'B', terminal, fun hEq => ?_⟩, rfl, rfl⟩
  have hlog := congrArg (fun r => invoke r []) hEq
  simp [invoke, MiddleWare.apply, MiddleWare.Bind, recording, terminal] at hlog

/-- C14: `Chain` maps concatenation to `Bind`: for non-empty sequences `xs` and `ys` and every
handler `h`, `Chain(xs ++ ys)` applied to `h` is `Chain(xs)` applied to the result of
`Chain(ys)` applied to `h`, which is what `Bind(Chain(xs), Chain(ys))` gives on `h`. -/
theorem C14_chain_append {H : Type} (xs ys : List (MiddleWare H)) (hxs : xs ≠ [])
    (hys : ys ≠ []) (h : H) :
    (Chain (xs ++ ys)).apply h = ((Chain ys).apply h >>= (Chain xs).apply) ∧
    (Chain (xs ++ ys)).apply h = ((Chain xs).Bind (Chain ys)).apply h := by
  have hne : xs ++ ys ≠ [] := by simp [hxs]
  have key : (Chain (xs ++ ys)).apply h = ((Chain xs).Bind (Chain ys)).apply h := by
    rw [apply_Chain_of_ne_nil _ hne, nested_append, apply_Bind, apply_Chain_of_ne_nil _ hys]
    cases nested ys h with
    | error e => rfl
    | ok x => simp only [apply_Chain_of_ne_nil _ hxs]
  refine ⟨?_, key⟩
  rw [key, apply_Bind]
  cases (Chain ys).apply h with
  | error e => rfl
  | ok x => rfl

/-- C14 at `xs = [wrap, deny]`, `ys = [wrap, wrap]` and handler 5: both sides return
handler 1. -/
theorem C14_chain_append_witness :
    [wrap, deny] ≠ [] ∧ [wrap, wrap] ≠ [] ∧
    ((Chain ([wrap, deny] ++ [wrap, wrap])).apply 5 =
        ((Chain [wrap, wrap]).apply 5 >>= (Chain [wrap, deny]).apply) ∧
      (Chain ([wrap, deny] ++ [wrap, wrap])).apply 5 =
        ((Chain [wrap, deny]).Bind (Chain [wrap, wrap])).apply 5) ∧
    (Chain ([wrap, deny] ++ [wrap, wrap])).apply 5 = Except.ok 1 :=
  ⟨by simp, by simp, C14_chain_append [wrap, deny] [wrap, wrap] (by simp) (by simp) 5, rfl⟩

/-- C15: the identity middleware is a two-sided unit of `Bind` up to application, and
inserting it at any position of a non-empty sequence (between `xs` and `ys`, either of which
may be empty) does not change what `Chain` of the sequence returns on any handler. -/
theorem C15_identity_unit {H : Type} (m : MiddleWare H) (xs ys : List (MiddleWare H))
    (hne : xs ++ ys ≠ []) (h : H) :
    (MiddleWare.Bind identity m).apply h = m.apply h ∧
    (m.Bind identity).apply h = m.apply h ∧
    (Chain (xs ++ identity :: ys)).apply h = (Chain (xs ++ ys)).apply h := by
  refine ⟨?_, rfl, ?_⟩
  · rw [apply_Bind]
    cases m.apply h with
    | error e => rfl
    | ok x => rfl
  · have hne2 : xs ++ identity :: ys ≠ [] := by simp
    rw [apply_Chain_of_ne_nil _ hne2, apply_Chain_of_ne_nil _ hne, nested_append,
      nested_append, nested_identity_cons]

/-- C15 at `m = wrap`, the sequence `[wrap, deny, wrap]` split after its first element, and
handler 5. -/
theorem C15_identity_unit_witness :
    [wrap] ++ [deny, wrap] ≠ [] ∧
    ((MiddleWare.Bind identity wrap).apply 5 = wrap.apply 5 ∧
      (wrap.Bind identity).apply 5 = wrap.apply 5 ∧
      (Chain ([wrap] ++ identity :: [deny, wrap])).apply 5 =
        (Chain ([wrap] ++ [deny, wrap])).apply 5) ∧
    (Chain ([wrap] ++ identity :: [deny, wrap])).apply 5 = Except.ok 1 :=
  ⟨by simp, C15_identity_unit wrap [wrap] [deny, wrap] (by simp) 5, rfl⟩

/-- C16 as stated fails: in `Chain(nil, faulty)` an element is absent, yet applying the
result to a handler calls `faulty` first, and the fault is the panic of `faulty`, not the
absent-value fault. -/
theorem C16_absent_deferred_counterexample :
    2 ≤ [none, faulty].length ∧ none ∈ [none, faulty] ∧
    (∃ f, Chain [none, faulty] = some f) ∧
    (Chain [none, faulty]).apply 1 = Except.error (Fault.raised "boom") ∧
    (Chain [none, faulty]).apply 1 ≠ Except.error Fault.absentValue := by
  refine ⟨by simp, by simp, ⟨_, rfl⟩, rfl, ?_⟩
  intro hEq
  cases hEq

theorem nested_absent_of_error {H : Type} (xs ys : List (MiddleWare H)) (h : H) (e : Fault)
    (hys : nested ys h = Except.error e) :
    nested (xs ++ none :: ys) h = Except.error e := by
  rw [nested_append, nested, hys]

/-- C16, amended: `Chain` of a single nil middleware returns nil; for every sequence `mws`
of two or more middlewares `Chain` returns a function value, never nil, even when some
elements are nil; when some element is nil, applying that result to a handler `h` is a
fault.  For a nil element at any position, `mws = xs ++ nil :: ys`: when the elements `ys`
after it, applied to `h` innermost first, each return a handler, the fault is the
absent-value fault, whatever the elements `xs` before it are; when one of those inner calls
fails, the fault is that of the first inner call that fails. -/
theorem C16_absent_deferred {H : Type} (mws : List (MiddleWare H)) (hlen : 2 ≤ mws.length) :
    Chain [(none : MiddleWare H)] = none ∧
    (∃ f, Chain mws = some f) ∧
    (none ∈ mws → ∀ h, ∃ e, (Chain mws).apply h = Except.error e) ∧
    (∀ (xs ys : List (MiddleWare H)) (h x : H), mws = xs ++ none :: ys →
      nested ys h = Except.ok x → (Chain mws).apply h = Except.error Fault.absentValue) ∧
    (∀ (xs ys : List (MiddleWare H)) (h : H) (e : Fault), mws = xs ++ none :: ys →
      nested ys h = Except.error e → (Chain mws).apply h = Except.error e) := by
  have hne : mws ≠ [] := by
    intro hnil
    rw [hnil] at hlen
    simp at hlen
  refine ⟨rfl, ?_, fun hmem h => ?_, fun xs ys h x hsplit hys => ?_,
    fun xs ys h e hsplit hys => ?_⟩
  · match mws, hlen with
    | m1 :: m2 :: rest, _ => exact chainLoop_ne_none rest (m1.Bind m2) ⟨_, rfl⟩
  · obtain ⟨xs, ys, hsplit⟩ := List.append_of_mem hmem
    rw [apply_Chain_of_ne_nil mws hne, hsplit]
    exact nested_absent_fault xs ys h
  · rw [apply_Chain_of_ne_nil mws hne, hsplit]
    exact nested_absent_of_ok xs ys h x hys
  · rw [apply_Chain_of_ne_nil mws hne, hsplit]
    exact nested_absent_of_error xs ys h e hys

/-- C16 at `[faulty, none, wrap]` and handler 0: `Chain` returns a function value; `wrap`,
after the nil element, returns handler 1, and the application is the absent-value fault,
`faulty` before the nil element never being called.  At `[wrap, none, faulty]` the inner
call of `faulty` fails first and its panic is the fault. -/
theorem C16_absent_deferred_witness :
    2 ≤ [faulty, none, wrap].length ∧
    (∃ f, Chain [faulty, none, wrap] = some f) ∧
    nested [wrap] 0 = Except.ok 1 ∧
    (Chain [faulty, none, wrap]).apply 0 = Except.error Fault.absentValue ∧
    nested [faulty] 0 = Except.error (Fault.raised "boom") ∧
    (Chain [wrap, none, faulty]).apply 0 = Except.error (Fault.raised "boom") :=
  ⟨by simp, (C16_absent_deferred [faulty, none, wrap] (by simp)).2.1, rfl,
    (C16_absent_deferred [faulty, none, wrap] (by simp)).2.2.2.1 [faulty] [wrap] 0 1 rfl rfl,
    rfl,
    (C16_absent_deferred [wrap, none, faulty] (by simp)).2.2.2.2 [wrap] [faulty] 0
      (Fault.raised "boom") rfl rfl⟩

end Monadleware
